import Mathlib

/-! SalmonUtils: orientation tags, reverse complement and lock-free accumulation.

A shallow embedding of the inline functions of `include/SalmonUtils.hpp`
(`boolToDirection`, `reverseComplement`, `incLoop`, `incLoopLog`) together with
the properties established about them.
-/

namespace SalmonUtils

/-! ## Direction -/

/-- The enum class `Direction { FORWARD = 0, REVERSE_COMPLEMENT = 1, REVERSE = 2 }`. -/
inductive Direction where
  | FORWARD
  | REVERSE_COMPLEMENT
  | REVERSE
  deriving DecidableEq, Repr

/-- `boolToDirection`: `isFwd ? Direction::FORWARD : Direction::REVERSE_COMPLEMENT`. -/
def boolToDirection (isFwd : Bool) : Direction :=
  if isFwd then Direction.FORWARD else Direction.REVERSE_COMPLEMENT

/-! ## Reverse complement -/

/-- The `switch (s[i])` of `reverseComplement`: the character stored for a base. -/
def complement (c : Char) : Char :=
  if c = 'A' ∨ c = 'a' then 'T'
  else if c = 'C' ∨ c = 'c' then 'G'
  else if c = 'T' ∨ c = 't' then 'A'
  else if c = 'G' ∨ c = 'g' then 'C'
  else 'N'

/-- The call `o.resize(n, c)` of `std::string`: truncate to `n` characters, or pad
with `c` up to `n` characters. -/
def resize (o : List Char) (n : Nat) (c : Char) : List Char :=
  o.take n ++ List.replicate (n - o.length) c

/-- The loop `for (i = l-1; i >= 0; --i, ++j) o[j] = complement(s[i])`.  The first
argument is `i + 1`, the number of iterations still to run; a read of `s[i]` past
the end of `s` has no defined result and yields `none`. -/
def reverseComplementLoop (s : List Char) : Nat → Nat → List Char → Option (List Char)
  | 0, _, o => some o
  | i + 1, j, o =>
    match s[i]? with
    | none => none
    | some c => reverseComplementLoop s i (j + 1) (o.set j (complement c))

/-- The overload `reverseComplement(const char* s, int32_t l, std::string& o)`; the
result is the final content of `o`.  A negative `l` converts to a `size_t` beyond
`max_size()` in the comparison `l > o.size()`, so `resize` throws: `none`. -/
def reverseComplement (s : List Char) (l : Int) (o : List Char) : Option (List Char) :=
  if l < 0 then none
  else
    let o1 := if l.toNat > o.length then resize o l.toNat 'A' else o
    reverseComplementLoop s l.toNat 0 o1

/-- `tbb::atomic<T>::compare_and_swap(value, comparand)` on a cell holding `val`:
the cell becomes `value` when its stored representation is that of `comparand` and
is left alone otherwise; the content it held before is returned.  The result is
(new content, returned value). -/
def compare_and_swap {α : Type} [DecidableEq α] (val value comparand : α) : α × α :=
  (if val = comparand then value else val, val)

/-- The local variables of `incLoop` and `incLoopLog`. -/
structure Locals (α : Type) where
  oldMass : α
  returnedMass : α
  newMass : α
  deriving DecidableEq, Repr

/-- Where a call of `incLoop` or `incLoopLog` stands between two atomic accesses of
the cell: before `val.load()`, at the head of the `do` body, or returned. -/
inductive Thread (α : Type) where
  | start
  | loop (m : Locals α)
  | done (m : Locals α)
  deriving DecidableEq, Repr

/-- One atomic access of `incLoop(tbb::atomic<double>& val, double inc)` with the
local computation that follows it, on a cell holding `val`: from `start` the load and
the two initialisations; from `loop` one pass of the `do` body with its `while`
test `returnedMass != oldMass`.  The result is (new content of the cell, new state
of the call). -/
def incLoopStep {α : Type} [DecidableEq α] [Add α] (ne : α → α → Bool) (inc : α) (val : α) :
    Thread α → α × Thread α
  | Thread.start =>
    let oldMass := val
    let returnedMass := oldMass
    let newMass := oldMass + inc
    (val, Thread.loop ⟨oldMass, returnedMass, newMass⟩)
  | Thread.loop m =>
    let oldMass := m.returnedMass
    let newMass := oldMass + inc
    let r := compare_and_swap val newMass oldMass
    let returnedMass := r.2
    if ne returnedMass oldMass then (r.1, Thread.loop ⟨oldMass, returnedMass, newMass⟩)
    else (r.1, Thread.done ⟨oldMass, returnedMass, newMass⟩)
  | Thread.done m => (val, Thread.done m)

/-- One atomic access of `incLoopLog(tbb::atomic<double>& val, double inc)` with the
local computation that follows it; `logAdd` and `LOG_0` are those of
`salmon::math`. -/
def incLoopLogStep {α : Type} [DecidableEq α] (ne : α → α → Bool) (logAdd : α → α → α)
    (LOG_0 : α) (inc : α) (val : α) : Thread α → α × Thread α
  | Thread.start =>
    let oldMass := val
    let returnedMass := oldMass
    let newMass := LOG_0
    (val, Thread.loop ⟨oldMass, returnedMass, newMass⟩)
  | Thread.loop m =>
    let oldMass := m.returnedMass
    let newMass := logAdd oldMass inc
    let r := compare_and_swap val newMass oldMass
    let returnedMass := r.2
    if ne returnedMass oldMass then (r.1, Thread.loop ⟨oldMass, returnedMass, newMass⟩)
    else (r.1, Thread.done ⟨oldMass, returnedMass, newMass⟩)
  | Thread.done m => (val, Thread.done m)

/-- The overload `incLoop(double& val, double inc)` for plain doubles: `val += inc`. -/
def incLoopPlain {α : Type} [Add α] (val inc : α) : α :=
  val + inc

/-- The shape shared by `incLoopStep` and `incLoopLogStep`: `new0` initialises
`newMass`, `cand` computes the candidate from `oldMass`. -/
def retryStep {α : Type} [DecidableEq α] (ne : α → α → Bool) (new0 cand : α → α) (val : α) :
    Thread α → α × Thread α
  | Thread.start => (val, Thread.loop ⟨val, val, new0 val⟩)
  | Thread.loop m =>
    if ne (compare_and_swap val (cand m.returnedMass) m.returnedMass).2 m.returnedMass then
      ((compare_and_swap val (cand m.returnedMass) m.returnedMass).1,
        Thread.loop ⟨m.returnedMass, val, cand m.returnedMass⟩)
    else
      ((compare_and_swap val (cand m.returnedMass) m.returnedMass).1,
        Thread.done ⟨m.returnedMass, val, cand m.returnedMass⟩)
  | Thread.done m => (val, Thread.done m)

/-! ### One call against interfering writes -/

/-- The cell after other threads have stored the values `ws` into it, in order. -/
def applyWrites {α : Type} (val : α) (ws : List α) : α :=
  ws.foldl (fun _ w => w) val

/-- The record of one atomic step of a call: the content of the cell at that instant
and the state of the call, each before and after the step. -/
structure Event (α : Type) where
  seen : α
  thread : Thread α
  stored : α
  next : Thread α
  deriving DecidableEq, Repr

/-- What a call leaves behind when it returns: the content of the cell and the
record of its atomic steps, oldest first. -/
structure Outcome (α : Type) where
  val : α
  trace : List (Event α)
  deriving DecidableEq, Repr

/-- The compare-and-swap attempts of a call: its steps taken from the loop. -/
def Outcome.attempts {α : Type} (out : Outcome α) : List (Event α) :=
  out.trace.filter fun e => match e.thread with
    | Thread.loop _ => true
    | _ => false

/-- Did the step swap: a compare-and-swap that found its comparand in the cell. -/
def Event.swapped {α : Type} [DecidableEq α] (e : Event α) : Bool :=
  match e.thread with
  | Thread.loop m => decide (e.seen = m.returnedMass)
  | _ => false

/-- A call run to its return.  `sched` gives, for each atomic step of the call in
turn, the values other threads store into the cell just before that step; once it
is used up nobody interferes.  `fuel` bounds the number of steps: `none` when the
call has not returned within it. -/
def runCall {α : Type} (step : α → Thread α → α × Thread α) :
    Nat → List (List α) → α → Thread α → Option (Outcome α)
  | 0, _, _, _ => none
  | fuel + 1, sched, val, t =>
    match t with
    | Thread.done _ => some ⟨val, []⟩
    | _ =>
      let seen := applyWrites val (sched.headD [])
      let r := step seen t
      match runCall step fuel sched.tail r.1 r.2 with
      | none => none
      | some out => some ⟨out.val, ⟨seen, t, r.1, r.2⟩ :: out.trace⟩

/-- A call `incLoop(val, inc)` on the atomic cell against the interference `sched`. -/
def incLoop {α : Type} [DecidableEq α] [Add α] (ne : α → α → Bool) (fuel : Nat)
    (sched : List (List α)) (val inc : α) : Option (Outcome α) :=
  runCall (incLoopStep ne inc) fuel sched val Thread.start

/-- A call `incLoopLog(val, inc)` against the interference `sched`. -/
def incLoopLog {α : Type} [DecidableEq α] (ne : α → α → Bool) (logAdd : α → α → α)
    (LOG_0 : α) (fuel : Nat) (sched : List (List α)) (val inc : α) : Option (Outcome α) :=
  runCall (incLoopLogStep ne logAdd LOG_0 inc) fuel sched val Thread.start

/-- The number of stores the interference `sched` makes. -/
def writes {α : Type} (sched : List (List α)) : Nat :=
  (sched.map List.length).sum

/-- Do `!=` and inequality of the stored representation agree on the values `l`:
none of them is a NaN, and no two of them are zeros of opposite sign. -/
def agree {α : Type} [DecidableEq α] (ne : α → α → Bool) (l : List α) : Bool :=
  l.all fun a => l.all fun b => ne a b == decide (a ≠ b)

/-- The interference that stores `x`, then `y`, then `x`, and so on: one store before
each of `n` consecutive steps of the call. -/
def altSched {α : Type} (x y : α) : Nat → List (List α)
  | 0 => []
  | n + 1 => [x] :: altSched y x n

/-- What one compare-and-swap attempt with candidate function `cand` does when its
loop test agrees with the swap: it fails and leaves the cell as it saw it, or it
succeeds and stores the candidate. -/
def AttemptOk {α : Type} (cand : α → α) (e : Event α) : Prop :=
  ∃ m, e.thread = Thread.loop m ∧
    ((e.seen ≠ m.returnedMass ∧ e.stored = e.seen ∧
        e.next = Thread.loop ⟨m.returnedMass, e.seen, cand m.returnedMass⟩) ∨
     (e.seen = m.returnedMass ∧ e.stored = cand e.seen ∧
        e.next = Thread.done ⟨m.returnedMass, e.seen, cand m.returnedMass⟩))

/-! ### Concurrent calls -/

/-- The threads of a concurrent run: each call's increment and its state. -/
abbrev Pool (α : Type) := List (α × Thread α)

/-- Thread `i` of the pool takes its next atomic step on the cell; an index past the
pool, like a thread that has returned, changes nothing. -/
def stepAt {α : Type} (step : α → α → Thread α → α × Thread α) :
    Nat → α → Pool α → α × Pool α
  | _, val, [] => (val, [])
  | 0, val, p :: ps => ((step p.1 val p.2).1, (p.1, (step p.1 val p.2).2) :: ps)
  | i + 1, val, p :: ps => ((stepAt step i val ps).1, p :: (stepAt step i val ps).2)

/-- The run of an interleaving: `sched` names, step by step, the thread that moves. -/
def exec {α : Type} (step : α → α → Thread α → α × Thread α) :
    List Nat → α → Pool α → α × Pool α
  | [], val, pool => (val, pool)
  | i :: sched, val, pool => exec step sched (stepAt step i val pool).1 (stepAt step i val pool).2

/-- Has the call returned. -/
def Thread.isDone {α : Type} : Thread α → Bool
  | Thread.done _ => true
  | _ => false

/-- The pool in which every call is still to start. -/
def spawn {α : Type} (incs : List α) : Pool α :=
  incs.map fun inc => (inc, Thread.start)

/-- Have all calls of the pool returned. -/
def allDone {α : Type} (pool : Pool α) : Bool :=
  pool.all fun p => p.2.isDone

/-- The increments of the calls that have returned, in pool order. -/
def returned {α : Type} (pool : Pool α) : List α :=
  (pool.filter fun p => p.2.isDone).map Prod.fst

/-- The increment thread `i` commits if it steps on a cell holding `val`: its own
when it is in the loop and the cell holds its comparand, so that its
compare-and-swap stores the candidate; none otherwise. -/
def commitAt {α : Type} [DecidableEq α] : Nat → α → Pool α → List α
  | _, _, [] => []
  | 0, val, p :: _ =>
    match p.2 with
    | Thread.loop m => if val = m.returnedMass then [p.1] else []
    | _ => []
  | i + 1, val, _ :: ps => commitAt i val ps

/-- The increments committed along an interleaving, in the order of their
compare-and-swaps. -/
def commits {α : Type} [DecidableEq α] (step : α → α → Thread α → α × Thread α) :
    List Nat → α → Pool α → List α
  | [], _, _ => []
  | i :: sched, val, pool =>
    commitAt i val pool ++ commits step sched (stepAt step i val pool).1 (stepAt step i val pool).2

/-- Does the loop test of thread `i`, stepping on a cell holding `val`, agree with
its compare-and-swap: `returnedMass != oldMass` exactly when the swap failed. -/
def agreeAt {α : Type} [DecidableEq α] (ne : α → α → Bool) : Nat → α → Pool α → Bool
  | _, _, [] => true
  | 0, val, p :: _ =>
    match p.2 with
    | Thread.loop m => ne val m.returnedMass == decide (val ≠ m.returnedMass)
    | _ => true
  | i + 1, val, _ :: ps => agreeAt ne i val ps

/-- Does every loop test along an interleaving agree with its compare-and-swap. -/
def execAgree {α : Type} [DecidableEq α] (ne : α → α → Bool)
    (step : α → α → Thread α → α × Thread α) : List Nat → α → Pool α → Bool
  | [], _, _ => true
  | i :: sched, val, pool =>
    agreeAt ne i val pool &&
      execAgree ne step sched (stepAt step i val pool).1 (stepAt step i val pool).2

/-! ## Doubles

The part of the IEEE 754 binary64 values that the evaluations below use. -/

/-- A double: NaN (one representation stands for all), an infinity, a zero with its
sign, or `fin n` for a nonzero integer `n` that a double holds exactly.  Equality
is equality of the stored 64 bits. -/
inductive Dbl where
  | nan
  | inf (neg : Bool)
  | zero (neg : Bool)
  | fin (n : Int)
  deriving DecidableEq, Repr

/-- The gap between neighbouring doubles at the magnitude of the integer `a`: 1 below
`2^53`, doubling with every further bit.  The first argument bounds the recursion. -/
def Dbl.spacing : Nat → Nat → Nat
  | 0, _ => 1
  | f + 1, a => if a < 2 ^ 53 then 1 else 2 * Dbl.spacing f (a / 2)

/-- The magnitude `a` rounded to 53 significant bits, to nearest, ties to even. -/
def Dbl.roundNat (a : Nat) : Nat :=
  let u := Dbl.spacing a a
  let q := a / u
  let r := a % u
  if 2 * r > u ∨ (2 * r = u ∧ q % 2 = 1) then (q + 1) * u else q * u

/-- The number of bits of `a`; the first argument bounds the recursion. -/
def Dbl.bitLength : Nat → Nat → Nat
  | 0, _ => 0
  | f + 1, a => if a = 0 then 0 else Dbl.bitLength f (a / 2) + 1

/-- The double nearest to the integer `n`; a magnitude that rounds to `2^1024` or more,
which takes more than 1024 bits, overflows to an infinity. -/
def Dbl.ofInt (n : Int) : Dbl :=
  if n = 0 then Dbl.zero false
  else if Dbl.bitLength (Dbl.roundNat n.natAbs) (Dbl.roundNat n.natAbs) > 1024 then
    Dbl.inf (decide (n < 0))
  else Dbl.fin (if n < 0 then -(Dbl.roundNat n.natAbs : Int) else (Dbl.roundNat n.natAbs : Int))

/-- The operator `+` of the doubles, rounding to nearest. -/
def Dbl.add : Dbl → Dbl → Dbl
  | Dbl.nan, _ => Dbl.nan
  | _, Dbl.nan => Dbl.nan
  | Dbl.inf s, Dbl.inf t => if s = t then Dbl.inf s else Dbl.nan
  | Dbl.inf s, _ => Dbl.inf s
  | _, Dbl.inf t => Dbl.inf t
  | Dbl.zero s, Dbl.zero t => Dbl.zero (s && t)
  | Dbl.zero _, Dbl.fin n => Dbl.fin n
  | Dbl.fin n, Dbl.zero _ => Dbl.fin n
  | Dbl.fin a, Dbl.fin b => Dbl.ofInt (a + b)

instance : Add Dbl := ⟨Dbl.add⟩

/-- The operator `!=` of the doubles: a NaN differs from everything, itself included;
the two zeros do not differ; other values differ when their bits do. -/
def Dbl.ne : Dbl → Dbl → Bool
  | Dbl.nan, _ => true
  | _, Dbl.nan => true
  | Dbl.zero _, Dbl.zero _ => false
  | a, b => decide (a ≠ b)

/-- The operator `<` of the doubles: false as soon as a NaN is involved; the two
zeros are equal. -/
def Dbl.lt : Dbl → Dbl → Bool
  | Dbl.nan, _ => false
  | _, Dbl.nan => false
  | Dbl.inf s, Dbl.inf t => s && !t
  | Dbl.inf s, _ => s
  | _, Dbl.inf t => !t
  | Dbl.zero _, Dbl.zero _ => false
  | Dbl.zero _, Dbl.fin n => decide (0 < n)
  | Dbl.fin n, Dbl.zero _ => decide (n < 0)
  | Dbl.fin a, Dbl.fin b => decide (a < b)

/-- `std::max(a, b)`: `(a < b) ? b : a`. -/
def Dbl.max (a b : Dbl) : Dbl :=
  if Dbl.lt a b then b else a

/-- The unary minus of the doubles. -/
def Dbl.neg : Dbl → Dbl
  | Dbl.nan => Dbl.nan
  | Dbl.inf s => Dbl.inf (!s)
  | Dbl.zero s => Dbl.zero (!s)
  | Dbl.fin n => Dbl.fin (-n)

/-- The absolute value of a double (`std::abs`). -/
def Dbl.abs : Dbl → Dbl
  | Dbl.nan => Dbl.nan
  | Dbl.inf _ => Dbl.inf false
  | Dbl.zero _ => Dbl.zero false
  | Dbl.fin n => Dbl.fin (Int.natAbs n : Int)

/-- The operator `-` of the doubles. -/
def Dbl.sub (a b : Dbl) : Dbl :=
  Dbl.add a (Dbl.neg b)

/-! ## Log-space addition (`salmon::math`, SalmonMath.hpp) -/

/-- Modelled from the spec: the double arithmetic `logAdd` is written in, and the
constant `LOG_ZERO` (`salmon::math::LOG_0`); SalmonMath.hpp is not among the
sources.  `ne` is the operator `!=`, so that `a == b` is `!ne a b`. -/
structure LogArith (α : Type) where
  ne : α → α → Bool
  LOG_0 : α
  max : α → α → α
  add : α → α → α
  sub : α → α → α
  neg : α → α
  abs : α → α
  exp : α → α
  log1p : α → α

/-- Modelled from the spec: `salmon::math::logAdd` of SalmonMath.hpp, which is not
among the sources:
`logAdd(a,b) = a==LOG_ZERO ? b : b==LOG_ZERO ? a : max(a,b) + log1p(exp(-|a-b|))`. -/
def logAdd {α : Type} (ar : LogArith α) (a b : α) : α :=
  if !ar.ne a ar.LOG_0 then b
  else if !ar.ne b ar.LOG_0 then a
  else ar.add (ar.max a b) (ar.log1p (ar.exp (ar.neg (ar.abs (ar.sub a b)))))

/-- Modelled from the spec: the arithmetic of `logAdd` on the doubles.  The constant
`LOG_ZERO` (minus infinity or a sentinel), and `exp` and `log1p` of the C library, are
passed in. -/
def dblArith (LOG_0 : Dbl) (exp log1p : Dbl → Dbl) : LogArith Dbl :=
  ⟨Dbl.ne, LOG_0, Dbl.max, Dbl.add, Dbl.sub, Dbl.neg, Dbl.abs, exp, log1p⟩

/-! ## Library-format compatibility

`compatibleHit` and `logAlignFormatProb` are declared in the header; their bodies,
`LibraryFormat` and `MateStatus` are defined in files that are not among the
sources. -/

/-- Modelled from the spec: the relative-orientation axis of a `LibraryFormat`
(LibraryFormat.hpp is not among the sources): mates face inward, mates face outward,
mates on the same strand, or unspecified. -/
inductive RelativeOrientation where
  | inward
  | outward
  | sameStrand
  | unspecified
  deriving DecidableEq, Repr

/-- Modelled from the spec: the strandedness axis of a `LibraryFormat`
(LibraryFormat.hpp is not among the sources). -/
inductive Strandedness where
  | forward
  | reverseComplement
  | unstranded
  deriving DecidableEq, Repr

/-- Modelled from the spec: `LibraryFormat` (LibraryFormat.hpp is not among the
sources), one value from each of its three axes. -/
structure LibraryFormat where
  relativeOrientation : RelativeOrientation
  strandedness : Strandedness
  isPairedEnd : Bool
  deriving DecidableEq, Repr

/-- Modelled from the spec: the mate status of an alignment (`rapmap::utils::MateStatus`,
RapMapUtils.hpp is not among the sources), with the tags the spec gives for which
mates contributed to it. -/
inductive MateStatus where
  | leftOrphan
  | rightOrphan
  | paired
  deriving DecidableEq, Repr

/-- Modelled from the spec: `compatibleHit(expected, observed)`, whose body is not
among the sources: strandedness matches or none is expected, relative orientation
matches or none is expected, and the pairing mode matches. -/
def compatibleHit (expected observed : LibraryFormat) : Bool :=
  (decide (expected.strandedness = observed.strandedness) ||
      decide (expected.strandedness = Strandedness.unstranded)) &&
    (decide (expected.relativeOrientation = observed.relativeOrientation) ||
      decide (expected.relativeOrientation = RelativeOrientation.unspecified)) &&
    decide (expected.isPairedEnd = observed.isPairedEnd)

/-- Modelled from the spec: `compatibleHit(expected, start, isForward, ms)`, whose
body is not among the sources: the overload for the evidence of a single mate.  The
strandedness derived from the mate is compared by the same rule; the orientation
axis is ignored, and the spec derives no pairing mode from a single mate. -/
def compatibleHitMate (expected : LibraryFormat) (_start : Int) (isForward : Bool)
    (_ms : MateStatus) : Bool :=
  decide (expected.strandedness =
      (if isForward then Strandedness.forward else Strandedness.reverseComplement)) ||
    decide (expected.strandedness = Strandedness.unstranded)

/-- Modelled from the spec: the verdict of `compatibleHit` for an alignment as
`logAlignFormatProb` receives it: the two-format overload when both mates
contributed, the single-mate overload for an orphan. -/
def compatibleAlignment (observed expected : LibraryFormat) (start : Int) (isForward : Bool)
    (ms : MateStatus) : Bool :=
  match ms with
  | MateStatus.paired => compatibleHit expected observed
  | _ => compatibleHitMate expected start isForward ms

/-- Modelled from the spec: `logAlignFormatProb`, whose body is not among the
sources: 0.0 when `compatibleHit` holds, `log(incompatPrior)` otherwise.  `log` is
the logarithm of the double arithmetic. -/
def logAlignFormatProb {D : Type} [Zero D] (log : D → D) (observed expected : LibraryFormat)
    (start : Int) (isForward : Bool) (ms : MateStatus) (incompatPrior : D) : D :=
  if compatibleAlignment observed expected start isForward ms then 0 else log incompatPrior

/-! # Properties -/

/-! ## Reverse complement -/

theorem incLoopStep_eq_retryStep {α : Type} [DecidableEq α] [Add α] (ne : α → α → Bool)
    (inc : α) :
    incLoopStep ne inc = retryStep ne (fun m => m + inc) (fun m => m + inc) := by
  funext val t
  cases t <;> rfl

theorem incLoopLogStep_eq_retryStep {α : Type} [DecidableEq α] (ne : α → α → Bool)
    (logAdd : α → α → α) (LOG_0 inc : α) :
    incLoopLogStep ne logAdd LOG_0 inc =
      retryStep ne (fun _ => LOG_0) (fun m => logAdd m inc) := by
  funext val t
  cases t <;> rfl

theorem retryStep_commit {α : Type} [DecidableEq α] (ne : α → α → Bool) (new0 cand : α → α)
    (val : α) (m : Locals α) (h : val = m.returnedMass) (hn : ne val m.returnedMass = false) :
    retryStep ne new0 cand val (Thread.loop m) =
      (cand m.returnedMass, Thread.done ⟨m.returnedMass, val, cand m.returnedMass⟩) := by
  obtain ⟨o, r, n⟩ := m
  simp only at h hn
  subst h
  simp [retryStep, compare_and_swap, hn]

theorem retryStep_retry {α : Type} [DecidableEq α] (ne : α → α → Bool) (new0 cand : α → α)
    (val : α) (m : Locals α) (h : val ≠ m.returnedMass) (hn : ne val m.returnedMass = true) :
    retryStep ne new0 cand val (Thread.loop m) =
      (val, Thread.loop ⟨m.returnedMass, val, cand m.returnedMass⟩) := by
  simp [retryStep, compare_and_swap, h, hn]

theorem retryStep_spin {α : Type} [DecidableEq α] (ne : α → α → Bool) (new0 cand : α → α)
    (val : α) (m : Locals α) (h : val = m.returnedMass) (hn : ne val m.returnedMass = true) :
    retryStep ne new0 cand val (Thread.loop m) =
      (cand m.returnedMass, Thread.loop ⟨m.returnedMass, val, cand m.returnedMass⟩) := by
  obtain ⟨o, r, n⟩ := m
  simp only at h hn
  subst h
  simp [retryStep, compare_and_swap, hn]

theorem retryStep_lost {α : Type} [DecidableEq α] (ne : α → α → Bool) (new0 cand : α → α)
    (val : α) (m : Locals α) (h : val ≠ m.returnedMass) (hn : ne val m.returnedMass = false) :
    retryStep ne new0 cand val (Thread.loop m) =
      (val, Thread.done ⟨m.returnedMass, val, cand m.returnedMass⟩) := by
  simp [retryStep, compare_and_swap, h, hn]

theorem applyWrites_ne {α : Type} {val : α} {ws : List α} (h : applyWrites val ws ≠ val) :
    1 ≤ ws.length := by
  cases ws with
  | nil => exact absurd rfl h
  | cons w ws => simp

theorem applyWrites_mem {α : Type} (val : α) (ws : List α) :
    applyWrites val ws = val ∨ applyWrites val ws ∈ ws := by
  induction ws using List.reverseRecOn with
  | nil => exact Or.inl rfl
  | append_singleton ws w _ =>
    right
    simp [applyWrites, List.foldl_append]

theorem writes_eq {α : Type} (sched : List (List α)) :
    writes sched = (sched.headD []).length + writes sched.tail := by
  cases sched with
  | nil => rfl
  | cons ws sched => simp [writes]

theorem agree_iff {α : Type} [DecidableEq α] {ne : α → α → Bool} {l : List α}
    (h : agree ne l = true) {a b : α} (ha : a ∈ l) (hb : b ∈ l) :
    ne a b = true ↔ a ≠ b := by
  simp only [agree, List.all_eq_true, beq_iff_eq] at h
  rw [h a ha b hb]
  simp

theorem runCall_done {α : Type} (step : α → Thread α → α × Thread α) (fuel : Nat)
    (sched : List (List α)) (val : α) (m : Locals α) :
    runCall step (fuel + 1) sched val (Thread.done m) = some ⟨val, []⟩ := rfl

theorem runCall_loop_unfold {α : Type} (step : α → Thread α → α × Thread α) (fuel : Nat)
    (sched : List (List α)) (val : α) (m : Locals α) :
    runCall step (fuel + 1) sched val (Thread.loop m) =
      match runCall step fuel sched.tail (step (applyWrites val (sched.headD [])) (Thread.loop m)).1
          (step (applyWrites val (sched.headD [])) (Thread.loop m)).2 with
      | none => none
      | some out => some ⟨out.val, ⟨applyWrites val (sched.headD []), Thread.loop m,
          (step (applyWrites val (sched.headD [])) (Thread.loop m)).1,
          (step (applyWrites val (sched.headD [])) (Thread.loop m)).2⟩ :: out.trace⟩ := rfl

theorem runCall_start_unfold {α : Type} (step : α → Thread α → α × Thread α) (fuel : Nat)
    (sched : List (List α)) (val : α) :
    runCall step (fuel + 1) sched val Thread.start =
      match runCall step fuel sched.tail (step (applyWrites val (sched.headD [])) Thread.start).1
          (step (applyWrites val (sched.headD [])) Thread.start).2 with
      | none => none
      | some out => some ⟨out.val, ⟨applyWrites val (sched.headD []), Thread.start,
          (step (applyWrites val (sched.headD [])) Thread.start).1,
          (step (applyWrites val (sched.headD [])) Thread.start).2⟩ :: out.trace⟩ := rfl

theorem runCall_loop {α : Type} [DecidableEq α] (ne : α → α → Bool) (new0 cand : α → α)
    (S : α → Prop) (hS : ∀ a b, S a → S b → (ne a b = true ↔ a ≠ b)) :
    ∀ (fuel : Nat) (sched : List (List α)) (val : α) (m : Locals α),
      val = m.returnedMass → S val → (∀ ws ∈ sched, ∀ w ∈ ws, S w) →
      writes sched + 2 ≤ fuel →
      ∃ out, runCall (retryStep ne new0 cand) fuel sched val (Thread.loop m) = some out ∧
        out.trace.length ≤ writes sched + 1 ∧
        (∀ e ∈ out.trace, AttemptOk cand e) ∧
        List.Chain' (fun e e' => e'.thread = e.next ∧
          ∃ m', e'.thread = Thread.loop m' ∧ m'.returnedMass = e.seen) out.trace ∧
        out.trace.head?.map Event.thread = some (Thread.loop m) ∧
        (out.trace.filter fun e => e.next.isDone).length = 1 ∧
        (∃ e, out.trace.getLast? = some e ∧ e.next.isDone = true ∧ out.val = e.stored) := by
  intro fuel
  induction fuel with
  | zero => intro _ _ _ _ _ _ h; omega
  | succ fuel ih =>
    intro sched val m hval hSv hSs hfuel
    have hw := writes_eq sched
    have hSseen : S (applyWrites val (sched.headD [])) := by
      rcases applyWrites_mem val (sched.headD []) with h | h
      · rw [h]; exact hSv
      · cases sched with
        | nil => simp at h
        | cons ws rest => exact hSs ws (List.mem_cons_self _ _) _ h
    have hSm : S m.returnedMass := hval ▸ hSv
    have hStail : ∀ ws ∈ sched.tail, ∀ w ∈ ws, S w :=
      fun ws hws => hSs ws (List.mem_of_mem_tail hws)
    rw [runCall_loop_unfold]
    by_cases hs : applyWrites val (sched.headD []) = m.returnedMass
    · obtain ⟨f, rfl⟩ : ∃ f, fuel = f + 1 := ⟨fuel - 1, by omega⟩
      have hn : ne (applyWrites val (sched.headD [])) m.returnedMass = false := by
        have := (hS _ _ hSseen hSm).not.mpr (not_not.mpr hs)
        simpa using this
      rw [retryStep_commit ne new0 cand _ m hs hn, runCall_done]
      refine ⟨_, rfl, ?_, ?_, ?_, ?_, ?_, ?_⟩
      · simp
      · intro e he
        simp only [List.mem_singleton] at he
        subst he
        exact ⟨m, rfl, Or.inr ⟨hs, congrArg cand hs.symm, rfl⟩⟩
      · simp
      · rfl
      · simp [Thread.isDone]
      · exact ⟨_, rfl, rfl, rfl⟩
    · have h1 : 1 ≤ (sched.headD []).length := applyWrites_ne (hval ▸ hs)
      have hn : ne (applyWrites val (sched.headD [])) m.returnedMass = true :=
        (hS _ _ hSseen hSm).mpr hs
      rw [retryStep_retry ne new0 cand _ m hs hn]
      obtain ⟨out, hrun, hlen, hall, hchain, hhead, hcount, hlast⟩ :=
        ih sched.tail (applyWrites val (sched.headD []))
          ⟨m.returnedMass, applyWrites val (sched.headD []), cand m.returnedMass⟩ rfl hSseen
          hStail (by omega)
      simp only [hrun]
      refine ⟨_, rfl, ?_, ?_, ?_, ?_, ?_, ?_⟩
      · simp only [List.length_cons]; omega
      · intro e he
        rcases List.mem_cons.mp he with rfl | he
        · exact ⟨m, rfl, Or.inl ⟨hs, rfl, rfl⟩⟩
        · exact hall e he
      · cases htr : out.trace with
        | nil => simp
        | cons e es =>
          rw [htr] at hchain hhead
          have hth : e.thread = Thread.loop ⟨m.returnedMass,
              applyWrites val (sched.headD []), cand m.returnedMass⟩ := by simpa using hhead
          exact List.Chain'.cons ⟨hth, _, hth, rfl⟩ hchain
      · rfl
      · simpa [List.filter_cons, Thread.isDone] using hcount
      · obtain ⟨e, he, hd, hv⟩ := hlast
        refine ⟨e, ?_, hd, hv⟩
        simp only [List.getLast?_cons, he]
        rfl

theorem attempts_cons_start {α : Type} (v : α) (e : Event α) (es : List (Event α))
    (he : e.thread = Thread.start) :
    (Outcome.mk v (e :: es)).attempts = (Outcome.mk v es).attempts := by
  simp [Outcome.attempts, List.filter_cons, he]

theorem attempts_of_loops {α : Type} (v : α) (es : List (Event α))
    (h : ∀ e ∈ es, ∃ m, e.thread = Thread.loop m) :
    (Outcome.mk v es).attempts = es := by
  simp only [Outcome.attempts]
  rw [List.filter_eq_self]
  intro e he
  obtain ⟨m, hm⟩ := h e he
  simp [hm]

theorem runCall_start {α : Type} [DecidableEq α] (ne : α → α → Bool) (new0 cand : α → α)
    (fuel : Nat) (sched : List (List α)) (val : α)
    (hag : agree ne (val :: sched.flatten) = true) (hfuel : writes sched + 3 ≤ fuel) :
    ∃ out es, runCall (retryStep ne new0 cand) fuel sched val Thread.start = some out ∧
      out.trace = ⟨applyWrites val (sched.headD []), Thread.start,
        applyWrites val (sched.headD []),
        Thread.loop ⟨applyWrites val (sched.headD []), applyWrites val (sched.headD []),
          new0 (applyWrites val (sched.headD []))⟩⟩ :: es ∧
      out.attempts = es ∧
      es.length ≤ writes sched + 1 ∧
      (∀ e ∈ es, AttemptOk cand e) ∧
      List.Chain' (fun e e' => e'.thread = e.next ∧
        ∃ m', e'.thread = Thread.loop m' ∧ m'.returnedMass = e.seen) out.trace ∧
      (es.filter fun e => e.next.isDone).length = 1 ∧
      (∃ e, es.getLast? = some e ∧ e.next.isDone = true ∧ out.val = e.stored) := by
  obtain ⟨f, rfl⟩ : ∃ f, fuel = f + 1 := ⟨fuel - 1, by omega⟩
  have hw := writes_eq sched
  have hSs : ∀ ws ∈ sched, ∀ w ∈ ws, w ∈ val :: sched.flatten := fun ws hws w hw =>
    List.mem_cons_of_mem _ (List.mem_flatten.mpr ⟨ws, hws, hw⟩)
  have hSseen : applyWrites val (sched.headD []) ∈ val :: sched.flatten := by
    rcases applyWrites_mem val (sched.headD []) with h | h
    · rw [h]; exact List.mem_cons_self _ _
    · cases sched with
      | nil => simp at h
      | cons ws rest => exact hSs ws (List.mem_cons_self _ _) _ h
  obtain ⟨out, hrun, hlen, hall, hchain, hhead, hcount, hlast⟩ :=
    runCall_loop ne new0 cand (fun a => a ∈ val :: sched.flatten)
      (fun a b ha hb => agree_iff hag ha hb) f sched.tail (applyWrites val (sched.headD []))
      ⟨applyWrites val (sched.headD []), applyWrites val (sched.headD []),
        new0 (applyWrites val (sched.headD []))⟩ rfl hSseen
      (fun ws hws => hSs ws (List.mem_of_mem_tail hws)) (by omega)
  rw [runCall_start_unfold]
  simp only [retryStep, hrun]
  refine ⟨_, out.trace, rfl, rfl, ?_, by omega, hall, ?_, hcount, hlast⟩
  · rw [attempts_cons_start _ _ _ rfl]
    exact attempts_of_loops _ _ fun e he => (hall e he).imp fun m hm => hm.1
  · cases htr : out.trace with
    | nil => simp
    | cons e es =>
      rw [htr] at hchain hhead
      have hth : e.thread = Thread.loop ⟨applyWrites val (sched.headD []),
          applyWrites val (sched.headD []), new0 (applyWrites val (sched.headD []))⟩ := by
        simpa using hhead
      exact List.Chain'.cons ⟨hth, _, hth, rfl⟩ hchain

theorem writes_zero_head {α : Type} {sched : List (List α)} (h : writes sched = 0) :
    sched.headD [] = [] ∧ writes sched.tail = 0 := by
  have hw := writes_eq sched
  exact ⟨List.length_eq_zero.mp (by omega), by omega⟩

theorem runCall_quiet {α : Type} [DecidableEq α] (ne : α → α → Bool) (new0 cand : α → α)
    (fuel : Nat) (sched : List (List α)) (v : α) (h : writes sched = 0)
    (hv : ne v v = false) :
    runCall (retryStep ne new0 cand) (fuel + 3) sched v Thread.start =
      some ⟨cand v, [⟨v, Thread.start, v, Thread.loop ⟨v, v, new0 v⟩⟩,
        ⟨v, Thread.loop ⟨v, v, new0 v⟩, cand v, Thread.done ⟨v, v, cand v⟩⟩]⟩ := by
  obtain ⟨h0, ht⟩ := writes_zero_head h
  obtain ⟨h1, _⟩ := writes_zero_head ht
  rw [runCall_start_unfold, h0]
  simp only [applyWrites, List.foldl_nil, retryStep]
  rw [runCall_loop_unfold, h1]
  simp only [applyWrites, List.foldl_nil]
  rw [retryStep_commit ne new0 cand v ⟨v, v, new0 v⟩ rfl hv, runCall_done]

theorem applyWrites_const {α : Type} (v : α) :
    ∀ ws : List α, (∀ w ∈ ws, w = v) → applyWrites v ws = v := by
  intro ws
  induction ws using List.reverseRecOn with
  | nil => intro _; rfl
  | append_singleton ws w _ =>
    intro h
    simp only [applyWrites, List.foldl_append, List.foldl_cons, List.foldl_nil]
    exact h w (by simp)

theorem headD_const {α : Type} (v : α) (sched : List (List α))
    (h : ∀ ws ∈ sched, ∀ w ∈ ws, w = v) : ∀ w ∈ sched.headD [], w = v := by
  cases sched with
  | nil => intro w hw; simp at hw
  | cons ws rest => exact h ws (List.mem_cons_self _ _)

theorem runCall_spin {α : Type} [DecidableEq α] (ne : α → α → Bool) (new0 cand : α → α)
    (v : α) (hv : ne v v = true) (hfix : cand v = v) :
    ∀ (fuel : Nat) (sched : List (List α)) (m : Locals α), (∀ ws ∈ sched, ∀ w ∈ ws, w = v) →
      m.returnedMass = v → runCall (retryStep ne new0 cand) fuel sched v (Thread.loop m) = none := by
  intro fuel
  induction fuel with
  | zero => intro _ _ _ _; rfl
  | succ fuel ih =>
    intro sched m hq hm
    rw [runCall_loop_unfold, applyWrites_const v _ (headD_const v sched hq)]
    rw [retryStep_spin ne new0 cand v m hm.symm (by rw [hm]; exact hv), hm, hfix]
    simp only [ih sched.tail ⟨v, v, v⟩ (fun ws hws => hq ws (List.mem_of_mem_tail hws)) rfl]

theorem runCall_never {α : Type} [DecidableEq α] (ne : α → α → Bool) (new0 cand : α → α)
    (v : α) (hv : ne v v = true) (hfix : cand v = v) (fuel : Nat) (sched : List (List α))
    (hq : ∀ ws ∈ sched, ∀ w ∈ ws, w = v) :
    runCall (retryStep ne new0 cand) fuel sched v Thread.start = none := by
  cases fuel with
  | zero => rfl
  | succ fuel =>
    rw [runCall_start_unfold, applyWrites_const v _ (headD_const v sched hq)]
    simp only [retryStep]
    simp only [runCall_spin ne new0 cand v hv hfix fuel sched.tail ⟨v, v, new0 v⟩
      (fun ws hws => hq ws (List.mem_of_mem_tail hws)) rfl]

theorem writes_altSched {α : Type} : ∀ (k : Nat) (a b : α), writes (altSched a b k) = k := by
  intro k
  induction k with
  | zero => intro a b; rfl
  | succ k ih =>
    intro a b
    rw [writes_eq]
    simp only [altSched, List.headD_cons, List.tail_cons, List.length_singleton, ih]
    omega

theorem runCall_altSched {α : Type} [DecidableEq α] (ne : α → α → Bool) (new0 cand : α → α) :
    ∀ (n fuel : Nat) (x y val : α) (m : Locals α), x ≠ y → agree ne [y, x] = true →
      m.returnedMass = y → val = y → n + 2 ≤ fuel →
      ∃ out, runCall (retryStep ne new0 cand) fuel (altSched x y n) val (Thread.loop m) =
          some out ∧
        out.trace.length = n + 1 ∧ ∀ e ∈ out.trace, ∃ m', e.thread = Thread.loop m' := by
  intro n
  induction n with
  | zero =>
    intro fuel x y val m _ hag hm hval hfuel
    obtain ⟨f, rfl⟩ : ∃ f, fuel = f + 2 := ⟨fuel - 2, by omega⟩
    have hs : applyWrites val ((altSched x y 0).headD []) = m.returnedMass := by
      simp [altSched, applyWrites, hm, hval]
    have hn : ne (applyWrites val ((altSched x y 0).headD [])) m.returnedMass = false := by
      rw [hs, hm]
      have := (agree_iff hag (List.mem_cons_self y _) (List.mem_cons_self y _)).not.mpr
        (not_not.mpr rfl)
      simpa using this
    rw [runCall_loop_unfold, retryStep_commit ne new0 cand _ m hs hn, runCall_done]
    exact ⟨_, rfl, rfl, by simp⟩
  | succ n ih =>
    intro fuel x y val m hxy hag hm _ hfuel
    obtain ⟨f, rfl⟩ : ∃ f, fuel = f + 1 := ⟨fuel - 1, by omega⟩
    have hs : applyWrites val ((altSched x y (n + 1)).headD []) = x := by
      simp [altSched, applyWrites]
    have hn : ne x m.returnedMass = true := by
      rw [hm]
      exact (agree_iff hag (by simp) (by simp)).mpr hxy
    have hag' : agree ne [x, y] = true := by
      simp only [agree, List.all_cons, List.all_nil, Bool.and_true, Bool.and_eq_true] at hag ⊢
      tauto
    rw [runCall_loop_unfold, hs, retryStep_retry ne new0 cand x m (by rw [hm]; exact hxy) hn]
    obtain ⟨out, hrun, hlen, hall⟩ :=
      ih f y x x ⟨m.returnedMass, x, cand m.returnedMass⟩ (Ne.symm hxy) hag' rfl rfl (by omega)
    have htail : (altSched x y (n + 1)).tail = altSched y x n := rfl
    simp only [htail, hrun]
    refine ⟨_, rfl, by simp [hlen], ?_⟩
    intro e he
    rcases List.mem_cons.mp he with rfl | he
    · exact ⟨m, rfl⟩
    · exact hall e he

theorem runCall_contended {α : Type} [DecidableEq α] (ne : α → α → Bool) (new0 cand : α → α)
    (n : Nat) (v x : α) (hx : x ≠ v) (hag : agree ne [v, x] = true) :
    ∃ out, runCall (retryStep ne new0 cand) (n + 3) ([] :: altSched x v n) v Thread.start =
        some out ∧ out.attempts.length = n + 1 := by
  obtain ⟨out, hrun, hlen, hall⟩ :=
    runCall_altSched ne new0 cand n (n + 2) x v v ⟨v, v, new0 v⟩ hx hag rfl rfl (Nat.le_refl _)
  rw [runCall_start_unfold]
  simp only [List.headD_cons, List.tail_cons, applyWrites, List.foldl_nil, retryStep, hrun]
  refine ⟨_, rfl, ?_⟩
  rw [attempts_cons_start _ _ _ rfl, attempts_of_loops _ _ hall, hlen]

/-! ## Concurrent calls -/

theorem returned_cons {α : Type} (p : α × Thread α) (ps : Pool α) :
    returned (p :: ps) = if p.2.isDone then p.1 :: returned ps else returned ps := by
  cases h : p.2.isDone <;> simp [returned, List.filter_cons, h]

theorem stepAt_val {α : Type} [DecidableEq α] (ne : α → α → Bool) (new0 : α → α → α)
    (f : α → α → α) :
    ∀ (pool : Pool α) (i : Nat) (val : α),
      (stepAt (fun inc => retryStep ne (new0 inc) (fun m => f m inc)) i val pool).1 =
        (commitAt i val pool).foldl f val := by
  intro pool
  induction pool with
  | nil => intro i val; cases i <;> rfl
  | cons p ps ih =>
    intro i val
    cases i with
    | succ i => exact ih i val
    | zero =>
      obtain ⟨inc, t⟩ := p
      cases t with
      | start => rfl
      | done m => rfl
      | loop m =>
        by_cases h : val = m.returnedMass
        · simp only [stepAt, commitAt, if_pos h, List.foldl_cons, List.foldl_nil]
          cases hn : ne val m.returnedMass
          · rw [retryStep_commit ne _ _ val m h hn, h]
          · rw [retryStep_spin ne _ _ val m h hn, h]
        · simp only [stepAt, commitAt, if_neg h, List.foldl_nil]
          cases hn : ne val m.returnedMass
          · rw [retryStep_lost ne _ _ val m h hn]
          · rw [retryStep_retry ne _ _ val m h hn]

theorem exec_val {α : Type} [DecidableEq α] (ne : α → α → Bool) (new0 : α → α → α)
    (f : α → α → α) :
    ∀ (sched : List Nat) (val : α) (pool : Pool α),
      (exec (fun inc => retryStep ne (new0 inc) (fun m => f m inc)) sched val pool).1 =
        (commits (fun inc => retryStep ne (new0 inc) (fun m => f m inc)) sched val pool).foldl
          f val := by
  intro sched
  induction sched with
  | nil => intro val pool; rfl
  | cons i sched ih =>
    intro val pool
    simp only [exec, commits, List.foldl_append]
    rw [ih, stepAt_val]

theorem stepAt_returned {α : Type} [DecidableEq α] (ne : α → α → Bool) (new0 : α → α → α)
    (f : α → α → α) :
    ∀ (pool : Pool α) (i : Nat) (val : α), agreeAt ne i val pool = true →
      (returned (stepAt (fun inc => retryStep ne (new0 inc) (fun m => f m inc)) i val pool).2).Perm
        (returned pool ++ commitAt i val pool) := by
  intro pool
  induction pool with
  | nil => intro i val _; cases i <;> exact List.Perm.refl _
  | cons p ps ih =>
    intro i val hag
    cases i with
    | succ i =>
      have h := ih i val hag
      simp only [stepAt, commitAt, returned_cons]
      cases p.2.isDone
      · simpa using h
      · simpa using h
    | zero =>
      obtain ⟨inc, t⟩ := p
      cases t with
      | start => simp [stepAt, commitAt, retryStep, returned_cons, Thread.isDone]
      | done m => simp [stepAt, commitAt, retryStep, returned_cons, Thread.isDone]
      | loop m =>
        simp only [agreeAt, beq_iff_eq] at hag
        by_cases h : val = m.returnedMass
        · have hn : ne val m.returnedMass = false := by simpa [h] using hag
          simp only [stepAt, commitAt, if_pos h]
          rw [retryStep_commit ne _ _ val m h hn]
          simp only [returned_cons, Thread.isDone, if_true, Bool.false_eq_true, if_false]
          simpa using (@List.perm_middle _ inc (returned ps) []).symm
        · have hn : ne val m.returnedMass = true := by simpa [h] using hag
          simp only [stepAt, commitAt, if_neg h]
          rw [retryStep_retry ne _ _ val m h hn]
          simp [returned_cons, Thread.isDone]

theorem exec_returned {α : Type} [DecidableEq α] (ne : α → α → Bool) (new0 : α → α → α)
    (f : α → α → α) :
    ∀ (sched : List Nat) (val : α) (pool : Pool α),
      execAgree ne (fun inc => retryStep ne (new0 inc) (fun m => f m inc)) sched val pool = true →
      (returned (exec (fun inc => retryStep ne (new0 inc) (fun m => f m inc)) sched val pool).2).Perm
        (returned pool ++
          commits (fun inc => retryStep ne (new0 inc) (fun m => f m inc)) sched val pool) := by
  intro sched
  induction sched with
  | nil => intro val pool _; simp [exec, commits]
  | cons i sched ih =>
    intro val pool hag
    simp only [execAgree, Bool.and_eq_true] at hag
    simp only [exec, commits]
    refine (ih _ _ hag.2).trans ?_
    rw [← List.append_assoc]
    exact (stepAt_returned ne new0 f pool i val hag.1).append_right _

theorem stepAt_incs {α : Type} (step : α → α → Thread α → α × Thread α) :
    ∀ (pool : Pool α) (i : Nat) (val : α),
      (stepAt step i val pool).2.map Prod.fst = pool.map Prod.fst := by
  intro pool
  induction pool with
  | nil => intro i val; cases i <;> rfl
  | cons p ps ih =>
    intro i val
    cases i with
    | zero => rfl
    | succ i => simp only [stepAt, List.map_cons, ih i val]

theorem exec_incs {α : Type} (step : α → α → Thread α → α × Thread α) :
    ∀ (sched : List Nat) (val : α) (pool : Pool α),
      (exec step sched val pool).2.map Prod.fst = pool.map Prod.fst := by
  intro sched
  induction sched with
  | nil => intro val pool; rfl
  | cons i sched ih =>
    intro val pool
    simp only [exec]
    rw [ih, stepAt_incs]

theorem returned_allDone {α : Type} (pool : Pool α) (h : allDone pool = true) :
    returned pool = pool.map Prod.fst := by
  induction pool with
  | nil => rfl
  | cons p ps ih =>
    simp only [allDone, List.all_cons, Bool.and_eq_true] at h
    rw [returned_cons, if_pos h.1, List.map_cons]
    exact congrArg _ (ih h.2)

theorem returned_spawn {α : Type} (incs : List α) : returned (spawn incs) = [] := by
  induction incs with
  | nil => rfl
  | cons x xs ih =>
    have : spawn (x :: xs) = (x, Thread.start) :: spawn xs := rfl
    rw [this, returned_cons]
    simpa [Thread.isDone] using ih

theorem spawn_incs {α : Type} (incs : List α) : (spawn incs).map Prod.fst = incs := by
  simp [spawn, List.map_map, Function.comp_def]

theorem exec_commits_perm {α : Type} [DecidableEq α] (ne : α → α → Bool) (new0 : α → α → α)
    (f : α → α → α) (sched : List Nat) (init : α) (incs : List α)
    (hag : execAgree ne (fun inc => retryStep ne (new0 inc) (fun m => f m inc)) sched init
      (spawn incs) = true)
    (hdone : allDone (exec (fun inc => retryStep ne (new0 inc) (fun m => f m inc)) sched init
      (spawn incs)).2 = true) :
    (commits (fun inc => retryStep ne (new0 inc) (fun m => f m inc)) sched init
      (spawn incs)).Perm incs := by
  have h := exec_returned ne new0 f sched init (spawn incs) hag
  rw [returned_allDone _ hdone, exec_incs, spawn_incs, returned_spawn, List.nil_append] at h
  exact h.symm

theorem foldl_perm {α : Type} (f : α → α → α) (hc : ∀ a x y, f (f a x) y = f (f a y) x)
    {l₁ l₂ : List α} (h : l₁.Perm l₂) : ∀ a : α, l₁.foldl f a = l₂.foldl f a := by
  induction h with
  | nil => intro a; rfl
  | cons x _ ih => intro a; simp only [List.foldl_cons]; exact ih (f a x)
  | swap x y l => intro a; simp only [List.foldl_cons]; rw [hc]
  | trans _ _ ih₁ ih₂ => intro a; rw [ih₁, ih₂]

/-! ## Doubles -/

theorem Dbl.nan_add (d : Dbl) : Dbl.nan + d = Dbl.nan := by
  cases d <;> rfl

theorem Dbl.add_nan (x : Dbl) : Dbl.add x Dbl.nan = Dbl.nan := by
  cases x <;> rfl

theorem logAdd_dblArith_nan (LOG_0 : Dbl) (exp log1p : Dbl → Dbl)
    (hexp : exp Dbl.nan = Dbl.nan) (hlog : log1p Dbl.nan = Dbl.nan) (inc : Dbl) :
    logAdd (dblArith LOG_0 exp log1p) Dbl.nan inc = Dbl.nan := by
  have hsub : Dbl.sub Dbl.nan inc = Dbl.nan := Dbl.nan_add (Dbl.neg inc)
  have h0 : Dbl.ne Dbl.nan LOG_0 = true := by cases LOG_0 <;> rfl
  cases h : Dbl.ne inc LOG_0
  · simp [logAdd, dblArith, h0, h]
  · simp [logAdd, dblArith, h0, h, hsub, Dbl.abs, Dbl.neg, hexp, hlog, Dbl.add_nan]

theorem logAdd_dblArith_far (LOG_0 : Dbl) (exp log1p : Dbl → Dbl)
    (hexp : ∀ n : Int, n ≤ -746 → exp (Dbl.fin n) = Dbl.zero false)
    (hlog : log1p (Dbl.zero false) = Dbl.zero false) (a b : Dbl) (n : Int)
    (ha : Dbl.ne a LOG_0 = true) (hb : Dbl.ne b LOG_0 = true)
    (hd : Dbl.neg (Dbl.abs (Dbl.sub a b)) = Dbl.fin n) (hn : n ≤ -746) :
    logAdd (dblArith LOG_0 exp log1p) a b = Dbl.add (Dbl.max a b) (Dbl.zero false) := by
  simp [logAdd, dblArith, ha, hb, hd, hexp n hn, hlog]

/-! ## The claims -/

/-- C5: `boolToDirection` maps `true` to `FORWARD` and `false` to `REVERSE_COMPLEMENT`;
it never yields `REVERSE`, and the two inputs give different results. -/
theorem boolToDirection_spec :
    boolToDirection true = Direction.FORWARD ∧
    boolToDirection false = Direction.REVERSE_COMPLEMENT ∧
    (∀ isFwd, boolToDirection isFwd ≠ Direction.REVERSE) ∧
    boolToDirection true ≠ boolToDirection false := by
  refine ⟨rfl, rfl, ?_, by decide⟩
  intro isFwd
  cases isFwd <;> decide

/-- C1, as amended: for every initial content of the cell, every list of increments and
every interleaving of the atomic steps of the concurrent calls `incLoop(cell, delta_i)`
in which every loop test agreed with its compare-and-swap, once all the calls have
returned the cell holds the initial content with the increments added one at a time in
the order in which they were committed, and the committed increments are the
increments of the calls, each once; where addition does not depend on the order,
that is the increments added in the order of the calls. -/
theorem incLoop_concurrent_commit_order {α : Type} [DecidableEq α] [Add α]
    (ne : α → α → Bool) (init : α) (deltas : List α) (sched : List Nat)
    (hag : execAgree ne (incLoopStep ne) sched init (spawn deltas) = true)
    (hdone : allDone (exec (incLoopStep ne) sched init (spawn deltas)).2 = true) :
    (exec (incLoopStep ne) sched init (spawn deltas)).1 =
        (commits (incLoopStep ne) sched init (spawn deltas)).foldl (fun a b => a + b) init ∧
      (commits (incLoopStep ne) sched init (spawn deltas)).Perm deltas ∧
      ((∀ a x y : α, a + x + y = a + y + x) →
        (exec (incLoopStep ne) sched init (spawn deltas)).1 =
          deltas.foldl (fun a b => a + b) init) := by
  have hstep : incLoopStep ne =
      fun inc => retryStep ne ((fun i m => m + i) inc) (fun m => (fun a b => a + b) m inc) :=
    funext (incLoopStep_eq_retryStep ne)
  rw [hstep] at hag hdone ⊢
  have hval := exec_val ne (fun i m => m + i) (fun a b => a + b) sched init (spawn deltas)
  have hperm := exec_commits_perm ne (fun i m => m + i) (fun a b => a + b) sched init deltas
    hag hdone
  refine ⟨hval, hperm, fun hc => ?_⟩
  rw [hval]
  exact foldl_perm (fun a b => a + b) hc hperm init

/-- Witness of C1 as amended: two calls adding 1 and 10 to a cell holding 5; the first
call loads, the second loads and commits, the first fails its attempt and commits at
the next. -/
theorem incLoop_concurrent_commit_order_witness :
    (execAgree Dbl.ne (incLoopStep Dbl.ne) [0, 1, 1, 0, 0] (Dbl.fin 5)
        (spawn [Dbl.fin 1, Dbl.fin 10]) = true ∧
      allDone (exec (incLoopStep Dbl.ne) [0, 1, 1, 0, 0] (Dbl.fin 5)
        (spawn [Dbl.fin 1, Dbl.fin 10])).2 = true) ∧
    (exec (incLoopStep Dbl.ne) [0, 1, 1, 0, 0] (Dbl.fin 5) (spawn [Dbl.fin 1, Dbl.fin 10])).1 =
      Dbl.fin 16 ∧
    commits (incLoopStep Dbl.ne) [0, 1, 1, 0, 0] (Dbl.fin 5) (spawn [Dbl.fin 1, Dbl.fin 10]) =
      [Dbl.fin 10, Dbl.fin 1] :=
  ⟨⟨by decide, by decide⟩,
    (incLoop_concurrent_commit_order Dbl.ne (Dbl.fin 5) [Dbl.fin 1, Dbl.fin 10] [0, 1, 1, 0, 0]
      (by decide) (by decide)).1.trans (by decide), by decide⟩

/-- Counterexample to C1 as stated: three calls adding `1e16`, `1` and `-1e16` to a cell
holding `+0.0`, each run to its return before the next starts.  In the order
`1e16, 1, -1e16` the cell ends at `+0.0`, in the order `1e16, -1e16, 1` at `1`: no
value is the content of the cell after every interleaving. -/
theorem incLoop_sum_depends_on_commit_order :
    (allDone (exec (incLoopStep Dbl.ne) [0, 0, 1, 1, 2, 2] (Dbl.zero false)
        (spawn [Dbl.fin (10 ^ 16), Dbl.fin 1, Dbl.fin (-10 ^ 16)])).2 = true ∧
      (exec (incLoopStep Dbl.ne) [0, 0, 1, 1, 2, 2] (Dbl.zero false)
        (spawn [Dbl.fin (10 ^ 16), Dbl.fin 1, Dbl.fin (-10 ^ 16)])).1 = Dbl.zero false) ∧
    (allDone (exec (incLoopStep Dbl.ne) [0, 0, 2, 2, 1, 1] (Dbl.zero false)
        (spawn [Dbl.fin (10 ^ 16), Dbl.fin 1, Dbl.fin (-10 ^ 16)])).2 = true ∧
      (exec (incLoopStep Dbl.ne) [0, 0, 2, 2, 1, 1] (Dbl.zero false)
        (spawn [Dbl.fin (10 ^ 16), Dbl.fin 1, Dbl.fin (-10 ^ 16)])).1 = Dbl.fin 1) ∧
    ¬ ∃ sum : Dbl, ∀ sched : List Nat,
      allDone (exec (incLoopStep Dbl.ne) sched (Dbl.zero false)
        (spawn [Dbl.fin (10 ^ 16), Dbl.fin 1, Dbl.fin (-10 ^ 16)])).2 = true →
      (exec (incLoopStep Dbl.ne) sched (Dbl.zero false)
        (spawn [Dbl.fin (10 ^ 16), Dbl.fin 1, Dbl.fin (-10 ^ 16)])).1 = sum := by
  have hA : allDone (exec (incLoopStep Dbl.ne) [0, 0, 1, 1, 2, 2] (Dbl.zero false)
        (spawn [Dbl.fin (10 ^ 16), Dbl.fin 1, Dbl.fin (-10 ^ 16)])).2 = true ∧
      (exec (incLoopStep Dbl.ne) [0, 0, 1, 1, 2, 2] (Dbl.zero false)
        (spawn [Dbl.fin (10 ^ 16), Dbl.fin 1, Dbl.fin (-10 ^ 16)])).1 = Dbl.zero false := by
    decide
  have hB : allDone (exec (incLoopStep Dbl.ne) [0, 0, 2, 2, 1, 1] (Dbl.zero false)
        (spawn [Dbl.fin (10 ^ 16), Dbl.fin 1, Dbl.fin (-10 ^ 16)])).2 = true ∧
      (exec (incLoopStep Dbl.ne) [0, 0, 2, 2, 1, 1] (Dbl.zero false)
        (spawn [Dbl.fin (10 ^ 16), Dbl.fin 1, Dbl.fin (-10 ^ 16)])).1 = Dbl.fin 1 := by
    decide
  refine ⟨hA, hB, ?_⟩
  rintro ⟨sum, h⟩
  have h1 := h _ hA.1
  have h2 := h _ hB.1
  rw [hA.2] at h1
  rw [hB.2] at h2
  exact absurd (h1.trans h2.symm) (by decide)

/-- C2 fails on zeros of opposite sign.  `logAdd` is the spec's formula over the doubles,
with a `LOG_ZERO` that `!=` tells from the four values met (minus infinity, say), an
`exp` that underflows to `+0.0` from `-746` down and `log1p(+0.0) = +0.0`.
Two calls `incLoopLog(cell, 1000)` and `incLoopLog(cell, -800)` on a cell holding
`-0.0`: when the first loads, the second loads and commits `logAdd(-0.0, -800) = +0.0`,
and the first then attempts, its compare-and-swap does not swap and its loop test
`+0.0 != -0.0` is false, so both calls have returned, the cell holds `+0.0` and only
`-800` was committed; run one after the other, in either order, the calls leave
`1000`, the iterated `logAdd`. -/
theorem incLoopLog_concurrent_lost_update (LOG_0 : Dbl) (exp log1p : Dbl → Dbl)
    (hL : ∀ x ∈ [Dbl.zero true, Dbl.zero false, Dbl.fin 1000, Dbl.fin (-800)],
      Dbl.ne x LOG_0 = true)
    (hexp : ∀ n : Int, n ≤ -746 → exp (Dbl.fin n) = Dbl.zero false)
    (hlog : log1p (Dbl.zero false) = Dbl.zero false) :
    (allDone (exec (incLoopLogStep Dbl.ne (logAdd (dblArith LOG_0 exp log1p)) LOG_0)
        [0, 1, 1, 0] (Dbl.zero true) (spawn [Dbl.fin 1000, Dbl.fin (-800)])).2 = true ∧
      (exec (incLoopLogStep Dbl.ne (logAdd (dblArith LOG_0 exp log1p)) LOG_0)
        [0, 1, 1, 0] (Dbl.zero true) (spawn [Dbl.fin 1000, Dbl.fin (-800)])).1 =
          Dbl.zero false ∧
      commits (incLoopLogStep Dbl.ne (logAdd (dblArith LOG_0 exp log1p)) LOG_0)
        [0, 1, 1, 0] (Dbl.zero true) (spawn [Dbl.fin 1000, Dbl.fin (-800)]) =
          [Dbl.fin (-800)]) ∧
    (exec (incLoopLogStep Dbl.ne (logAdd (dblArith LOG_0 exp log1p)) LOG_0)
        [0, 0, 1, 1] (Dbl.zero true) (spawn [Dbl.fin 1000, Dbl.fin (-800)])).1 = Dbl.fin 1000 ∧
    (exec (incLoopLogStep Dbl.ne (logAdd (dblArith LOG_0 exp log1p)) LOG_0)
        [1, 1, 0, 0] (Dbl.zero true) (spawn [Dbl.fin 1000, Dbl.fin (-800)])).1 = Dbl.fin 1000 ∧
    [Dbl.fin 1000, Dbl.fin (-800)].foldl (logAdd (dblArith LOG_0 exp log1p)) (Dbl.zero true) =
      Dbl.fin 1000 := by
  have hz : Dbl.ne (Dbl.zero true) LOG_0 = true := hL _ (by simp)
  have hp : Dbl.ne (Dbl.zero false) LOG_0 = true := hL _ (by simp)
  have hk : Dbl.ne (Dbl.fin 1000) LOG_0 = true := hL _ (by simp)
  have hm : Dbl.ne (Dbl.fin (-800)) LOG_0 = true := hL _ (by simp)
  have h1 : logAdd (dblArith LOG_0 exp log1p) (Dbl.zero true) (Dbl.fin (-800)) =
      Dbl.zero false :=
    (logAdd_dblArith_far LOG_0 exp log1p hexp hlog (Dbl.zero true) (Dbl.fin (-800)) (-800)
      hz hm (by decide) (by decide)).trans (by decide)
  have h2 : logAdd (dblArith LOG_0 exp log1p) (Dbl.zero true) (Dbl.fin 1000) = Dbl.fin 1000 :=
    (logAdd_dblArith_far LOG_0 exp log1p hexp hlog (Dbl.zero true) (Dbl.fin 1000) (-1000)
      hz hk (by decide) (by decide)).trans (by decide)
  have h3 : logAdd (dblArith LOG_0 exp log1p) (Dbl.zero false) (Dbl.fin 1000) = Dbl.fin 1000 :=
    (logAdd_dblArith_far LOG_0 exp log1p hexp hlog (Dbl.zero false) (Dbl.fin 1000) (-1000)
      hp hk (by decide) (by decide)).trans (by decide)
  have h4 : logAdd (dblArith LOG_0 exp log1p) (Dbl.fin 1000) (Dbl.fin (-800)) = Dbl.fin 1000 :=
    (logAdd_dblArith_far LOG_0 exp log1p hexp hlog (Dbl.fin 1000) (Dbl.fin (-800)) (-1800)
      hk hm (by decide) (by decide)).trans (by decide)
  refine ⟨⟨?_, ?_, ?_⟩, ?_, ?_, ?_⟩
  · simp [exec, stepAt, incLoopLogStep, compare_and_swap, spawn, allDone, Thread.isDone,
      h1, h2, Dbl.ne]
  · simp [exec, stepAt, incLoopLogStep, compare_and_swap, spawn, h1, h2, Dbl.ne]
  · simp [commits, commitAt, stepAt, incLoopLogStep, compare_and_swap, spawn, h1, h2, Dbl.ne]
  · simp [exec, stepAt, incLoopLogStep, compare_and_swap, spawn, h1, h2, h4, Dbl.ne]
  · simp [exec, stepAt, incLoopLogStep, compare_and_swap, spawn, h1, h2, h3, Dbl.ne]
  · simp [h2, h4]

/-- Witness of the evaluation for C2: `LOG_ZERO` minus infinity, `exp` replaced by the
function that is `+0.0` throughout and `log1p` by the identity, which have the
properties asked for. -/
theorem incLoopLog_concurrent_lost_update_witness :
    ((∀ x ∈ [Dbl.zero true, Dbl.zero false, Dbl.fin 1000, Dbl.fin (-800)],
        Dbl.ne x (Dbl.inf true) = true) ∧
      (∀ n : Int, n ≤ -746 → (fun _ : Dbl => Dbl.zero false) (Dbl.fin n) = Dbl.zero false) ∧
      (id : Dbl → Dbl) (Dbl.zero false) = Dbl.zero false) ∧
    (exec (incLoopLogStep Dbl.ne
        (logAdd (dblArith (Dbl.inf true) (fun _ => Dbl.zero false) id)) (Dbl.inf true))
      [0, 1, 1, 0] (Dbl.zero true) (spawn [Dbl.fin 1000, Dbl.fin (-800)])).1 = Dbl.zero false :=
  ⟨⟨by decide, fun _ _ => rfl, rfl⟩,
    (incLoopLog_concurrent_lost_update (Dbl.inf true) (fun _ => Dbl.zero false) id (by decide)
      (fun _ _ => rfl) rfl).1.2.1⟩

/-- C3 fails on a NaN: `incLoop` on the atomic cell holding a NaN, with no other thread
storing, has not returned after any number of steps, for every increment `d`, while
the overload for plain doubles returns at once and leaves NaN + `d`, a NaN. -/
theorem incLoop_nan_single_threaded (d : Dbl) (fuel : Nat) :
    incLoop Dbl.ne fuel [] Dbl.nan d = none ∧ incLoopPlain Dbl.nan d = Dbl.nan := by
  refine ⟨?_, Dbl.nan_add d⟩
  simp only [incLoop]
  rw [incLoopStep_eq_retryStep]
  exact runCall_never Dbl.ne _ _ Dbl.nan rfl (Dbl.nan_add d) fuel [] (by simp)

/-- C4 fails on a NaN: with `logAdd` the spec's formula over the doubles, whatever
`LOG_ZERO` is, and `exp` and `log1p` mapping NaN to NaN, `incLoopLog` on a cell holding
a NaN, with no other thread storing, has not returned after any number of steps, for
every increment. -/
theorem incLoopLog_nan_single_threaded (LOG_0 : Dbl) (exp log1p : Dbl → Dbl)
    (hexp : exp Dbl.nan = Dbl.nan) (hlog : log1p Dbl.nan = Dbl.nan) (inc : Dbl) (fuel : Nat) :
    incLoopLog Dbl.ne (logAdd (dblArith LOG_0 exp log1p)) LOG_0 fuel [] Dbl.nan inc =
      none := by
  simp only [incLoopLog]
  rw [incLoopLogStep_eq_retryStep]
  exact runCall_never Dbl.ne _ _ Dbl.nan rfl
    (logAdd_dblArith_nan LOG_0 exp log1p hexp hlog inc) fuel [] (by simp)

/-- Witness of the evaluation for C4: `LOG_ZERO` minus infinity, `exp` and `log1p`
replaced by the identity, which maps NaN to NaN; the increment is 1, the bound 50
steps. -/
theorem incLoopLog_nan_single_threaded_witness :
    ((id : Dbl → Dbl) Dbl.nan = Dbl.nan ∧ (id : Dbl → Dbl) Dbl.nan = Dbl.nan) ∧
    incLoopLog Dbl.ne (logAdd (dblArith (Dbl.inf true) id id)) (Dbl.inf true) 50 [] Dbl.nan
      (Dbl.fin 1) = none :=
  ⟨⟨rfl, rfl⟩, incLoopLog_nan_single_threaded (Dbl.inf true) id id rfl rfl (Dbl.fin 1) 50⟩

/-- C6 fails on a NaN: on a cell holding a NaN, whatever the number `k` of stores by
other threads, each storing a NaN, neither `incLoop` nor `incLoopLog` (for a `logAdd`
that maps a NaN cell to NaN) has returned after any number of steps. -/
theorem retry_loop_nan_never_returns (logAdd : Dbl → Dbl → Dbl) (LOG_0 d : Dbl)
    (hnan : logAdd Dbl.nan d = Dbl.nan) (k fuel : Nat) :
    writes (List.replicate k [Dbl.nan]) = k ∧
    incLoop Dbl.ne fuel (List.replicate k [Dbl.nan]) Dbl.nan d = none ∧
    incLoopLog Dbl.ne logAdd LOG_0 fuel (List.replicate k [Dbl.nan]) Dbl.nan d = none := by
  have hq : ∀ ws ∈ List.replicate k [Dbl.nan], ∀ w ∈ ws, w = Dbl.nan := by
    intro ws hws w hw
    rw [(List.mem_replicate.mp hws).2] at hw
    simpa using hw
  refine ⟨by simp [writes], ?_, ?_⟩
  · simp only [incLoop]
    rw [incLoopStep_eq_retryStep]
    exact runCall_never Dbl.ne _ _ Dbl.nan rfl (Dbl.nan_add d) fuel _ hq
  · simp only [incLoopLog]
    rw [incLoopLogStep_eq_retryStep]
    exact runCall_never Dbl.ne _ _ Dbl.nan rfl hnan fuel _ hq

/-- Witness of the evaluation for C6: no store at all, increment 1, 50 steps; `logAdd`
is the spec's formula with `exp` and `log1p` replaced by the identity. -/
theorem retry_loop_nan_never_returns_witness :
    logAdd (dblArith (Dbl.inf true) id id) Dbl.nan (Dbl.fin 1) = Dbl.nan ∧
    incLoop Dbl.ne 50 (List.replicate 0 [Dbl.nan]) Dbl.nan (Dbl.fin 1) = none ∧
    incLoopLog Dbl.ne (logAdd (dblArith (Dbl.inf true) id id)) (Dbl.inf true) 50 (List.replicate 0 [Dbl.nan])
      Dbl.nan (Dbl.fin 1) = none :=
  ⟨by decide,
    (retry_loop_nan_never_returns (logAdd (dblArith (Dbl.inf true) id id)) (Dbl.inf true) (Dbl.fin 1)
      (by decide) 0 50).2⟩

/-- C9 fails on zeros of opposite sign: a call `incLoop(cell, 1)` on a cell holding
`+0.0`, with `-0.0` stored by another thread between its load and its
compare-and-swap, makes one attempt, which does not swap (the cell holds other bits
than the comparand), and returns all the same, since `-0.0 != +0.0` is false: the
cell is left at `-0.0` and the increment is lost. -/
theorem incLoop_returns_without_swap :
    incLoop Dbl.ne 3 [[], [Dbl.zero true]] (Dbl.zero false) (Dbl.fin 1) =
      some ⟨Dbl.zero true,
        [⟨Dbl.zero false, Thread.start, Dbl.zero false,
            Thread.loop ⟨Dbl.zero false, Dbl.zero false, Dbl.fin 1⟩⟩,
          ⟨Dbl.zero true, Thread.loop ⟨Dbl.zero false, Dbl.zero false, Dbl.fin 1⟩,
            Dbl.zero true, Thread.done ⟨Dbl.zero false, Dbl.zero true, Dbl.fin 1⟩⟩]⟩ ∧
    (∀ out, incLoop Dbl.ne 3 [[], [Dbl.zero true]] (Dbl.zero false) (Dbl.fin 1) = some out →
      out.attempts.length = 1 ∧ out.attempts.filter Event.swapped = [] ∧
        out.val ≠ Dbl.fin 1) := by
  have h : incLoop Dbl.ne 3 [[], [Dbl.zero true]] (Dbl.zero false) (Dbl.fin 1) =
      some ⟨Dbl.zero true,
        [⟨Dbl.zero false, Thread.start, Dbl.zero false,
            Thread.loop ⟨Dbl.zero false, Dbl.zero false, Dbl.fin 1⟩⟩,
          ⟨Dbl.zero true, Thread.loop ⟨Dbl.zero false, Dbl.zero false, Dbl.fin 1⟩,
            Dbl.zero true, Thread.done ⟨Dbl.zero false, Dbl.zero true, Dbl.fin 1⟩⟩]⟩ := by
    decide
  refine ⟨h, ?_⟩
  intro out hout
  rw [h] at hout
  cases hout
  decide

/-- C7: the retry loop of `incLoop` and of `incLoopLog` has no bound on its attempts:
for every `n`, every cell value `v` and every value `x` of other bits such that `!=`
tells the two apart and tells neither from itself, there is an interference of `n`
stores under which the call makes `n + 1` compare-and-swap attempts, more than `n`,
before it returns.  Where `!=` is inequality of the bits, any `x` other than `v` is
such a value. -/
theorem retry_loop_unbounded {α : Type} [DecidableEq α] [Add α] (ne : α → α → Bool)
    (logAdd : α → α → α) (LOG_0 : α) (n : Nat) (v d : α)
    (hx : ∃ x : α, x ≠ v ∧ agree ne [v, x] = true) :
    (∃ sched fuel out, writes sched = n ∧ incLoop ne fuel sched v d = some out ∧
      n < out.attempts.length) ∧
    (∃ sched fuel out, writes sched = n ∧
      incLoopLog ne logAdd LOG_0 fuel sched v d = some out ∧ n < out.attempts.length) := by
  obtain ⟨x, hxv, hag⟩ := hx
  have hw : writes ([] :: altSched x v n) = n := by
    rw [writes_eq]
    simp [writes_altSched]
  constructor
  · obtain ⟨out, hrun, hlen⟩ :=
      runCall_contended ne (fun m => m + d) (fun m => m + d) n v x hxv hag
    refine ⟨[] :: altSched x v n, n + 3, out, hw, ?_, by omega⟩
    simp only [incLoop]
    rw [incLoopStep_eq_retryStep]
    exact hrun
  · obtain ⟨out, hrun, hlen⟩ :=
      runCall_contended ne (fun _ => LOG_0) (fun m => logAdd m d) n v x hxv hag
    refine ⟨[] :: altSched x v n, n + 3, out, hw, ?_, by omega⟩
    simp only [incLoopLog]
    rw [incLoopLogStep_eq_retryStep]
    exact hrun

/-- Witness of C7: more than four attempts on a cell holding 5, the other threads
storing 6 and 5 in turn. -/
theorem retry_loop_unbounded_witness :
    (∃ x : Dbl, x ≠ Dbl.fin 5 ∧ agree Dbl.ne [Dbl.fin 5, x] = true) ∧
    (∃ sched fuel out, writes sched = 4 ∧
      incLoop Dbl.ne fuel sched (Dbl.fin 5) (Dbl.fin 3) = some out ∧
      4 < out.attempts.length) ∧
    (∃ sched fuel out, writes sched = 4 ∧
      incLoopLog Dbl.ne Dbl.max (Dbl.inf true) fuel sched (Dbl.fin 5) (Dbl.fin 3) = some out ∧
      4 < out.attempts.length) :=
  ⟨⟨Dbl.fin 6, by decide, by decide⟩,
    retry_loop_unbounded Dbl.ne Dbl.max (Dbl.inf true) 4 (Dbl.fin 5) (Dbl.fin 3)
      ⟨Dbl.fin 6, by decide, by decide⟩⟩

/-- C8: for every observed and expected format, start, strand, mate status and
`incompatPrior` in `(0, 1]`, `logAlignFormatProb` is `0.0` when `compatibleHit` holds
for the alignment and `log(incompatPrior)` otherwise. -/
theorem logAlignFormatProb_spec {D : Type} [LinearOrder D] [Zero D] [One D] (log : D → D)
    (observed expected : LibraryFormat) (start : Int) (isForward : Bool) (ms : MateStatus)
    (incompatPrior : D) (_hpos : 0 < incompatPrior) (_hle : incompatPrior ≤ 1) :
    (compatibleAlignment observed expected start isForward ms = true →
      logAlignFormatProb log observed expected start isForward ms incompatPrior = 0) ∧
    (compatibleAlignment observed expected start isForward ms = false →
      logAlignFormatProb log observed expected start isForward ms incompatPrior =
        log incompatPrior) := by
  constructor
  · intro h
    simp [logAlignFormatProb, h]
  · intro h
    simp [logAlignFormatProb, h]

/-- Witness of C8: an inward, forward, paired alignment against an expected outward
library, with prior 1 and a stand-in for the logarithm. -/
theorem logAlignFormatProb_spec_witness :
    ((0 : Int) < 1 ∧ (1 : Int) ≤ 1) ∧
    logAlignFormatProb (fun x : Int => x - 5)
      ⟨RelativeOrientation.inward, Strandedness.forward, true⟩
      ⟨RelativeOrientation.outward, Strandedness.forward, true⟩ 100 true MateStatus.paired 1 =
      (fun x : Int => x - 5) 1 :=
  ⟨⟨by decide, by decide⟩,
    (logAlignFormatProb_spec (fun x : Int => x - 5)
      ⟨RelativeOrientation.inward, Strandedness.forward, true⟩
      ⟨RelativeOrientation.outward, Strandedness.forward, true⟩ 100 true MateStatus.paired 1
      (by decide) (by decide)).2 (by decide)⟩

/-! ## The loops on values that `!=` compares like their bits -/

/-- With no store by another thread during the call, `incLoop` on the atomic cell
holding a value `v` that is not `!=` to itself (not a NaN) makes exactly one
compare-and-swap attempt, which swaps, and leaves `v + d` in the cell: the value the
overload for plain doubles leaves. -/
theorem incLoop_single_threaded_not_nan {α : Type} [DecidableEq α] [Add α] (ne : α → α → Bool)
    (sched : List (List α)) (v d : α) (fuel : Nat) (hquiet : writes sched = 0)
    (hv : ne v v = false) :
    ∃ out, incLoop ne (fuel + 3) sched v d = some out ∧
      out.attempts =
        [⟨v, Thread.loop ⟨v, v, v + d⟩, v + d, Thread.done ⟨v, v, v + d⟩⟩] ∧
      out.val = v + d ∧
      out.val = incLoopPlain v d := by
  refine ⟨⟨v + d, [⟨v, Thread.start, v, Thread.loop ⟨v, v, v + d⟩⟩,
    ⟨v, Thread.loop ⟨v, v, v + d⟩, v + d, Thread.done ⟨v, v, v + d⟩⟩]⟩, ?_, rfl, rfl, rfl⟩
  simp only [incLoop]
  rw [incLoopStep_eq_retryStep]
  exact runCall_quiet ne _ _ fuel sched v hquiet hv

/-- The call adding 3 to a cell holding 5, the other threads idle. -/
theorem incLoop_single_threaded_not_nan_witness :
    (writes ([[], []] : List (List Dbl)) = 0 ∧ Dbl.ne (Dbl.fin 5) (Dbl.fin 5) = false) ∧
    ∃ out, incLoop Dbl.ne (0 + 3) [[], []] (Dbl.fin 5) (Dbl.fin 3) = some out ∧
      out.val = Dbl.fin 8 := by
  refine ⟨⟨by decide, by decide⟩, ?_⟩
  obtain ⟨out, hrun, _, hval, _⟩ :=
    incLoop_single_threaded_not_nan Dbl.ne [[], []] (Dbl.fin 5) (Dbl.fin 3) 0 (by decide) (by decide)
  exact ⟨out, hrun, hval.trans (by decide)⟩

/-- With no store by another thread during the call, `incLoopLog` on a cell holding a
value `v` that is not `!=` to itself makes exactly one compare-and-swap attempt,
which swaps, and leaves `logAdd(v, inc)` in the cell. -/
theorem incLoopLog_single_threaded_not_nan {α : Type} [DecidableEq α] (ne : α → α → Bool)
    (logAdd : α → α → α) (LOG_0 : α) (sched : List (List α)) (v inc : α) (fuel : Nat)
    (hquiet : writes sched = 0) (hv : ne v v = false) :
    ∃ out, incLoopLog ne logAdd LOG_0 (fuel + 3) sched v inc = some out ∧
      out.attempts =
        [⟨v, Thread.loop ⟨v, v, LOG_0⟩, logAdd v inc, Thread.done ⟨v, v, logAdd v inc⟩⟩] ∧
      out.val = logAdd v inc := by
  refine ⟨⟨logAdd v inc, [⟨v, Thread.start, v, Thread.loop ⟨v, v, LOG_0⟩⟩,
    ⟨v, Thread.loop ⟨v, v, LOG_0⟩, logAdd v inc, Thread.done ⟨v, v, logAdd v inc⟩⟩]⟩,
    ?_, rfl, rfl⟩
  simp only [incLoopLog]
  rw [incLoopLogStep_eq_retryStep]
  exact runCall_quiet ne _ _ fuel sched v hquiet hv

/-- The call adding `LOG_ZERO` to a cell holding 5: the cell is left at 5. -/
theorem incLoopLog_single_threaded_not_nan_witness :
    (writes ([] : List (List Dbl)) = 0 ∧ Dbl.ne (Dbl.fin 5) (Dbl.fin 5) = false) ∧
    ∃ out, incLoopLog Dbl.ne (logAdd (dblArith (Dbl.inf true) id id)) (Dbl.inf true) (0 + 3) []
        (Dbl.fin 5) (Dbl.inf true) = some out ∧ out.val = Dbl.fin 5 := by
  refine ⟨⟨by decide, by decide⟩, ?_⟩
  obtain ⟨out, hrun, _, hval⟩ :=
    incLoopLog_single_threaded_not_nan Dbl.ne (logAdd (dblArith (Dbl.inf true) id id)) (Dbl.inf true) []
      (Dbl.fin 5) (Dbl.inf true) 0 (by decide) (by decide)
  exact ⟨out, hrun, hval.trans (by decide)⟩

/-- When `!=` agrees with inequality of the bits on the initial value of the cell and
the values other threads store (no NaN, no two zeros of opposite sign among them),
and the other threads store at most `k` times, `incLoop(cell, d)` returns after at
most `k + 1` compare-and-swap attempts; its steps are a load, then attempts that
either see other bits than they expect, leave the cell and hand the value seen to
the next attempt, or see the expected value `w` and store `w + d`; exactly one
attempt ends the loop, it is the last, and the cell holds what it stored. -/
theorem incLoop_retry_discipline_agree {α : Type} [DecidableEq α] [Add α] (ne : α → α → Bool)
    (sched : List (List α)) (v d : α) (k fuel : Nat)
    (hag : agree ne (v :: sched.flatten) = true) (hk : writes sched ≤ k)
    (hfuel : k + 3 ≤ fuel) :
    ∃ out, incLoop ne fuel sched v d = some out ∧
      out.attempts.length ≤ k + 1 ∧
      (∃ e, out.trace.head? = some e ∧ e.thread = Thread.start ∧ e.stored = e.seen ∧
        e.next = Thread.loop ⟨e.seen, e.seen, e.seen + d⟩) ∧
      (∀ e ∈ out.attempts, ∃ m, e.thread = Thread.loop m ∧
        ((e.seen ≠ m.returnedMass ∧ e.stored = e.seen ∧
            e.next = Thread.loop ⟨m.returnedMass, e.seen, m.returnedMass + d⟩) ∨
         (e.seen = m.returnedMass ∧ e.stored = e.seen + d ∧
            e.next = Thread.done ⟨m.returnedMass, e.seen, m.returnedMass + d⟩))) ∧
      List.Chain' (fun e e' => e'.thread = e.next ∧
          ∃ m', e'.thread = Thread.loop m' ∧ m'.returnedMass = e.seen) out.trace ∧
      (out.attempts.filter fun e => e.next.isDone).length = 1 ∧
      (∃ e, out.attempts.getLast? = some e ∧ e.next.isDone = true ∧ out.val = e.stored) := by
  obtain ⟨out, es, hrun, htr, hatt, hlen, hall, hchain, hcount, hlast⟩ :=
    runCall_start ne (fun m => m + d) (fun m => m + d) fuel sched v hag (by omega)
  refine ⟨out, ?_, by rw [hatt]; omega, ?_, ?_, hchain, by rw [hatt]; exact hcount,
    by rw [hatt]; exact hlast⟩
  · simp only [incLoop]
    rw [incLoopStep_eq_retryStep]
    exact hrun
  · rw [htr]
    exact ⟨_, rfl, rfl, rfl, rfl⟩
  · rw [hatt]
    exact hall

/-- The call adding 3 to a cell holding 5 that meets three stores, two of them between
the same two steps. -/
theorem incLoop_retry_discipline_agree_witness :
    (agree Dbl.ne (Dbl.fin 5 :: [[], [Dbl.fin 7], [Dbl.fin 9, Dbl.fin 10]].flatten) = true ∧
      writes [[], [Dbl.fin 7], [Dbl.fin 9, Dbl.fin 10]] ≤ 3 ∧ 3 + 3 ≤ 6) ∧
    ∃ out, incLoop Dbl.ne 6 [[], [Dbl.fin 7], [Dbl.fin 9, Dbl.fin 10]] (Dbl.fin 5) (Dbl.fin 3) =
        some out ∧ out.attempts.length ≤ 3 + 1 := by
  refine ⟨⟨by decide, by decide, by decide⟩, ?_⟩
  obtain ⟨out, hrun, hlen, _⟩ :=
    incLoop_retry_discipline_agree Dbl.ne [[], [Dbl.fin 7], [Dbl.fin 9, Dbl.fin 10]] (Dbl.fin 5)
      (Dbl.fin 3) 3 6 (by decide) (by decide) (by decide)
  exact ⟨out, hrun, hlen⟩

/-- Under the same agreement of `!=` with the bits and at most `k` stores by other
threads, `incLoopLog(cell, inc)` returns after at most `k + 1` compare-and-swap
attempts, and the last of them saw the value `w` it expected and stored
`logAdd(w, inc)`, which the cell holds at the return. -/
theorem incLoopLog_retry_discipline_agree {α : Type} [DecidableEq α] (ne : α → α → Bool)
    (logAdd : α → α → α) (LOG_0 : α) (sched : List (List α)) (v inc : α) (k fuel : Nat)
    (hag : agree ne (v :: sched.flatten) = true) (hk : writes sched ≤ k)
    (hfuel : k + 3 ≤ fuel) :
    ∃ out, incLoopLog ne logAdd LOG_0 fuel sched v inc = some out ∧
      out.attempts.length ≤ k + 1 ∧
      (out.attempts.filter fun e => e.next.isDone).length = 1 ∧
      (∃ e m, out.attempts.getLast? = some e ∧ e.thread = Thread.loop m ∧
        e.seen = m.returnedMass ∧ e.stored = logAdd e.seen inc ∧ out.val = e.stored) := by
  obtain ⟨out, es, hrun, htr, hatt, hlen, hall, hchain, hcount, hlast⟩ :=
    runCall_start ne (fun _ => LOG_0) (fun m => logAdd m inc) fuel sched v hag (by omega)
  refine ⟨out, ?_, by rw [hatt]; omega, by rw [hatt]; exact hcount, ?_⟩
  · simp only [incLoopLog]
    rw [incLoopLogStep_eq_retryStep]
    exact hrun
  · obtain ⟨e, he, hd, hv⟩ := hlast
    obtain ⟨m, hm, hcase⟩ := hall e (List.mem_of_getLast?_eq_some he)
    rcases hcase with ⟨_, _, hnext⟩ | ⟨hseen, hst, _⟩
    · rw [hnext] at hd
      simp [Thread.isDone] at hd
    · exact ⟨e, m, by rw [hatt]; exact he, hm, hseen, hst, hv⟩

/-- The call adding `LOG_ZERO` to a cell holding 5 that meets one store of 7: two
attempts at most. -/
theorem incLoopLog_retry_discipline_agree_witness :
    (agree Dbl.ne (Dbl.fin 5 :: [[], [Dbl.fin 7]].flatten) = true ∧
      writes [[], [Dbl.fin 7]] ≤ 1 ∧ 1 + 3 ≤ 4) ∧
    ∃ out, incLoopLog Dbl.ne (logAdd (dblArith (Dbl.inf true) id id)) (Dbl.inf true) 4 [[], [Dbl.fin 7]]
        (Dbl.fin 5) (Dbl.inf true) = some out ∧ out.attempts.length ≤ 1 + 1 := by
  refine ⟨⟨by decide, by decide, by decide⟩, ?_⟩
  obtain ⟨out, hrun, hlen, _⟩ :=
    incLoopLog_retry_discipline_agree Dbl.ne (logAdd (dblArith (Dbl.inf true) id id)) (Dbl.inf true)
      [[], [Dbl.fin 7]] (Dbl.fin 5) (Dbl.inf true) 1 4 (by decide) (by decide) (by decide)
  exact ⟨out, hrun, hlen⟩

/-- For every initial content of the cell, every list of increments and every
interleaving of the atomic steps of the concurrent calls `incLoopLog(cell, inc_i)` in
which every loop test agreed with its compare-and-swap, once all the calls have
returned the cell holds the `logAdd` of the initial content and the increments,
taken one at a time in the order in which they were committed, and the committed
increments are the increments of the calls, each once; for a `logAdd` that does not
depend on the order, that is the increments taken in the order of the calls. -/
theorem incLoopLog_concurrent_commit_order {α : Type} [DecidableEq α] (ne : α → α → Bool)
    (logAdd : α → α → α) (LOG_0 init : α) (incs : List α) (sched : List Nat)
    (hag : execAgree ne (incLoopLogStep ne logAdd LOG_0) sched init (spawn incs) = true)
    (hdone : allDone (exec (incLoopLogStep ne logAdd LOG_0) sched init (spawn incs)).2 = true) :
    (exec (incLoopLogStep ne logAdd LOG_0) sched init (spawn incs)).1 =
        (commits (incLoopLogStep ne logAdd LOG_0) sched init (spawn incs)).foldl logAdd init ∧
      (commits (incLoopLogStep ne logAdd LOG_0) sched init (spawn incs)).Perm incs ∧
      ((∀ a x y : α, logAdd (logAdd a x) y = logAdd (logAdd a y) x) →
        (exec (incLoopLogStep ne logAdd LOG_0) sched init (spawn incs)).1 =
          incs.foldl logAdd init) := by
  have hstep : incLoopLogStep ne logAdd LOG_0 =
      fun inc => retryStep ne ((fun _ _ => LOG_0) inc) (fun m => logAdd m inc) :=
    funext (incLoopLogStep_eq_retryStep ne logAdd LOG_0)
  rw [hstep] at hag hdone ⊢
  have hval := exec_val ne (fun _ _ => LOG_0) logAdd sched init (spawn incs)
  have hperm := exec_commits_perm ne (fun _ _ => LOG_0) logAdd sched init incs hag hdone
  refine ⟨hval, hperm, fun hc => ?_⟩
  rw [hval]
  exact foldl_perm logAdd hc hperm init

/-- Two calls adding `LOG_ZERO` and 7 to a cell holding `LOG_ZERO`; the first call
loads, the second loads and commits, the first fails its attempt and commits at the
next. -/
theorem incLoopLog_concurrent_commit_order_witness :
    (execAgree Dbl.ne (incLoopLogStep Dbl.ne (logAdd (dblArith (Dbl.inf true) id id)) (Dbl.inf true))
        [0, 1, 1, 0, 0] (Dbl.inf true) (spawn [Dbl.inf true, Dbl.fin 7]) = true ∧
      allDone (exec (incLoopLogStep Dbl.ne (logAdd (dblArith (Dbl.inf true) id id)) (Dbl.inf true))
        [0, 1, 1, 0, 0] (Dbl.inf true) (spawn [Dbl.inf true, Dbl.fin 7])).2 = true) ∧
    (exec (incLoopLogStep Dbl.ne (logAdd (dblArith (Dbl.inf true) id id)) (Dbl.inf true))
      [0, 1, 1, 0, 0] (Dbl.inf true) (spawn [Dbl.inf true, Dbl.fin 7])).1 = Dbl.fin 7 :=
  ⟨⟨by decide, by decide⟩,
    (incLoopLog_concurrent_commit_order Dbl.ne (logAdd (dblArith (Dbl.inf true) id id)) (Dbl.inf true)
      (Dbl.inf true) [Dbl.inf true, Dbl.fin 7] [0, 1, 1, 0, 0] (by decide) (by decide)).1.trans
      (by decide)⟩

end SalmonUtils
